import Mathlib

/-!
Shallow embedding of the tabular snapshot-diff engine of
`Check Part Numbers.panel/Check Part Number.pushbutton/script.py`
(the `compare_excel_files` function, appended to that file as `Excel Compare.py`,
source lines 219-382).

The engine reads two spreadsheet snapshots (the "Glazing Master" sheet of two
Excel files), groups the rows of each by the value of the `Part Location`
column (`df.groupby('Part Location')`, which by pandas default drops rows whose
key cell is NaN), iterates over the python-set union of the two key sets, and
for each key classifies the two row groups via a two-pass greedy matching on
the row dictionaries with the key column dropped.

Modelling conventions:
  * a cell value is a `Value` (a string, or `Value.null` for a NaN/blank cell);
    dict equality treats `null = null` as true, matching the common case where
    pandas hands back the identical NaN object so python's dict comparison
    succeeds through its identity fast path;
  * a row (`Row`) is the association list produced by
    `to_dict(orient='records')`: column name to value, unique column names;
    python dict equality is `dictBeq` (lookup-wise equality both ways);
  * the matching state (`MSt`) carries `matched_indices_prev`,
    `matched_indices_curr` and the accumulated `changes` list exactly as in
    the source; the two passes are `firstPassGo` / `secondPassGo`;
  * the unordered python set `all_part_locations` is modelled by passing the
    enumeration order of the key union explicitly (`order : List Value`);
  * rendering truthiness (`if change['previous'] and not change['current']`)
    is kept: python's empty dict is falsy, so `classifyChange` drops a side
    that is `None` or an empty dict.
-/

inductive Value where
  | str (s : String)
  | null
  deriving DecidableEq, Repr

/-- A row as `to_dict(orient='records')` yields it: column name to value. -/
abbrev Row := List (String × Value)

/-- Column lookup in a row dictionary. -/
def lookupCol (r : Row) (c : String) : Option Value :=
  match r with
  | [] => none
  | kv :: rest => if kv.1 = c then some kv.2 else lookupCol rest c

/-- Python dict equality `p_row == c_row`: every entry of each side is present
with the same value on the other side. -/
def dictBeq (a b : Row) : Bool :=
  (a.all fun kv => lookupCol b kv.1 == some kv.2) &&
  (b.all fun kv => lookupCol a kv.1 == some kv.2)

/-- `rows.drop(columns=['Part Location'])` applied to one row. -/
def dropKey (r : Row) : Row := r.filter fun kv => kv.1 != "Part Location"

/-- One entry of the source's `changes` list: the
`{'previous': ..., 'current': ...}` dictionary, where either side may be
python `None`. -/
abbrev Change := Option Row × Option Row

/-- The matching state threaded through both passes: `matched_indices_prev`,
`matched_indices_curr` and the accumulated `changes`. -/
structure MSt where
  matchedPrev : List Nat
  matchedCurr : List Nat
  changes : List Change
  deriving DecidableEq, Repr

/-- The inner scanning loop of either pass: walk the enumerated row list,
skip indices already in `matched`, and return the first index whose row is
dict-equal to the probe row `x`. -/
def scanFor (matched : List Nat) (x : Row) : Nat → List Row → Option Nat
  | _, [] => none
  | i, c :: cs =>
    if !(matched.contains i) && dictBeq x c then some i
    else scanFor matched x (i + 1) cs

/-- First pass (source lines 321-332): for each previous row in order, scan the
current rows for the first unmatched exact match; if none, record
`{'previous': p_row, 'current': None}`. -/
def firstPassGo (currDicts : List Row) : Nat → List Row → MSt → MSt
  | _, [], st => st
  | pIdx, p :: ps, st =>
    match scanFor st.matchedCurr p 0 currDicts with
    | some cIdx =>
      firstPassGo currDicts (pIdx + 1) ps
        ⟨st.matchedPrev ++ [pIdx], st.matchedCurr ++ [cIdx], st.changes⟩
    | none =>
      firstPassGo currDicts (pIdx + 1) ps
        ⟨st.matchedPrev, st.matchedCurr, st.changes ++ [(some p, none)]⟩

/-- Second pass (source lines 334-347): for each current row not yet matched,
rescan the unmatched previous rows; if none matches, record
`{'previous': None, 'current': c_row}`. -/
def secondPassGo (prevDicts : List Row) : Nat → List Row → MSt → MSt
  | _, [], st => st
  | cIdx, c :: cs, st =>
    if st.matchedCurr.contains cIdx then secondPassGo prevDicts (cIdx + 1) cs st
    else
      match scanFor st.matchedPrev c 0 prevDicts with
      | some pIdx =>
        secondPassGo prevDicts (cIdx + 1) cs
          ⟨st.matchedPrev ++ [pIdx], st.matchedCurr ++ [cIdx], st.changes⟩
      | none =>
        secondPassGo prevDicts (cIdx + 1) cs
          ⟨st.matchedPrev, st.matchedCurr, st.changes ++ [(none, some c)]⟩

/-- The complete row-matching of one key group pair (source lines 317-347). -/
def matchRows (prevDicts currDicts : List Row) : MSt :=
  secondPassGo prevDicts 0 currDicts (firstPassGo currDicts 0 prevDicts ⟨[], [], []⟩)

/-- Simplified second phase: record every current row left unmatched by the
first pass directly as an added-row candidate, without rescanning the previous
rows.  (Claim C10 asserts the rescan of `secondPassGo` never finds a match, so
the comparator built on this version coincides with the real one.) -/
def simpleSecondGo : Nat → List Row → MSt → MSt
  | _, [], st => st
  | cIdx, c :: cs, st =>
    if st.matchedCurr.contains cIdx then simpleSecondGo (cIdx + 1) cs st
    else simpleSecondGo (cIdx + 1) cs
      ⟨st.matchedPrev, st.matchedCurr, st.changes ++ [(none, some c)]⟩

/-- `matchRows` with the rescan-free second phase. -/
def matchRowsSimple (prevDicts currDicts : List Row) : MSt :=
  simpleSecondGo 0 currDicts (firstPassGo currDicts 0 prevDicts ⟨[], [], []⟩)

inductive RowDelta where
  | removedRow (r : Row)
  | addedRow (r : Row)
  | changedRow (p c : Row)
  deriving DecidableEq, Repr

/-- Python truthiness of a `change` side: `None` and the empty dict are falsy. -/
def truthy : Option Row → Bool
  | none => false
  | some r => !r.isEmpty

/-- The `if/elif` chain of source lines 361-375 classifying one `changes`
entry for the report (the final `elif`, `Row Changed`, requires both sides
truthy). An entry falling through every branch produces no report line. -/
def classifyChange (ch : Change) : Option RowDelta :=
  if truthy ch.1 && !truthy ch.2 then some (RowDelta.removedRow (ch.1.getD []))
  else if !truthy ch.1 && truthy ch.2 then some (RowDelta.addedRow (ch.2.getD []))
  else if truthy ch.1 && truthy ch.2 then
    some (RowDelta.changedRow (ch.1.getD []) (ch.2.getD []))
  else none

inductive KeyDelta where
  | added (k : Value) (rows : List Row)
  | removed (k : Value) (rows : List Row)
  | changed (k : Value) (deltas : List RowDelta)
  | unchanged (k : Value)
  deriving DecidableEq, Repr

/-- The key value of a row: the `Part Location` cell (a missing cell is NaN). -/
def keyValOf (r : Row) : Value := (lookupCol r "Part Location").getD Value.null

/-- The distinct group keys of `df.groupby('Part Location')`: pandas' default
`dropna=True` drops rows whose key cell is NaN, so `Value.null` never becomes
a group key. -/
def keyValsOf (rows : List Row) : List Value :=
  ((rows.map keyValOf).filter fun v => v != Value.null).dedup

/-- The grouping `df.groupby('Part Location')`: each non-null key value maps to
the rows carrying it, in snapshot order. -/
def groupsOf (rows : List Row) : List (Value × List Row) :=
  (keyValsOf rows).map fun v => (v, rows.filter fun r => keyValOf r == v)

abbrev Groups := List (Value × List Row)

/-- `grouped.get_group(part_loc) if part_loc in grouped.groups else ...`. -/
def lookupGroup (g : Groups) (k : Value) : Option (List Row) :=
  (g.find? fun e => e.1 == k).map (·.2)

def keysOf (g : Groups) : List Value := g.map (·.1)

/-- The row-level comparison of the two groups for a key present in both
snapshots (source lines 311-375): returns `some deltas` when the source emits a
`PART LOCATION CHANGES` section for this key (`changes` non-empty and
`total_matches == 0`), and `none` when nothing is written. -/
def compareRowsOpt (prevRows currRows : List Row) : Option (List RowDelta) :=
  if !prevRows.isEmpty && !currRows.isEmpty then
    if !(matchRows (prevRows.map dropKey) (currRows.map dropKey)).changes.isEmpty &&
        (matchRows (prevRows.map dropKey) (currRows.map dropKey)).matchedPrev.length == 0 then
      some ((matchRows (prevRows.map dropKey) (currRows.map dropKey)).changes.filterMap
        classifyChange)
    else none
  else none

/-- `compareRowsOpt` built on the rescan-free matching. -/
def compareRowsOptSimple (prevRows currRows : List Row) : Option (List RowDelta) :=
  if !prevRows.isEmpty && !currRows.isEmpty then
    if !(matchRowsSimple (prevRows.map dropKey) (currRows.map dropKey)).changes.isEmpty &&
        (matchRowsSimple (prevRows.map dropKey) (currRows.map dropKey)).matchedPrev.length == 0 then
      some ((matchRowsSimple (prevRows.map dropKey) (currRows.map dropKey)).changes.filterMap
        classifyChange)
    else none
  else none

/-- The per-key body of the comparison loop (source lines 282-375). -/
def compareKey (gPrev gCurr : Groups) (k : Value) : KeyDelta :=
  match lookupGroup gPrev k with
  | none => KeyDelta.added k ((lookupGroup gCurr k).getD [])
  | some prevRows =>
    match lookupGroup gCurr k with
    | none => KeyDelta.removed k prevRows
    | some currRows =>
      match compareRowsOpt prevRows currRows with
      | some ds => KeyDelta.changed k ds
      | none => KeyDelta.unchanged k

/-- `compareKey` built on the rescan-free matching. -/
def compareKeySimple (gPrev gCurr : Groups) (k : Value) : KeyDelta :=
  match lookupGroup gPrev k with
  | none => KeyDelta.added k ((lookupGroup gCurr k).getD [])
  | some prevRows =>
    match lookupGroup gCurr k with
    | none => KeyDelta.removed k prevRows
    | some currRows =>
      match compareRowsOptSimple prevRows currRows with
      | some ds => KeyDelta.changed k ds
      | none => KeyDelta.unchanged k

/-- The loop `for part_loc in all_part_locations` (source line 282):
`all_part_locations` is an unordered python set, so its enumeration order is
supplied explicitly as `order`. -/
def compareAll (gPrev gCurr : Groups) (order : List Value) : List KeyDelta :=
  order.map (compareKey gPrev gCurr)

/-- `order` is a possible enumeration of the python set
`set(grouped_prev.groups.keys()).union(set(grouped_curr.groups.keys()))`. -/
abbrev validOrder (gPrev gCurr : Groups) (order : List Value) : Prop :=
  order.Nodup ∧ (∀ k ∈ order, k ∈ keysOf gPrev ∨ k ∈ keysOf gCurr) ∧
    (∀ k ∈ keysOf gPrev, k ∈ order) ∧ ∀ k ∈ keysOf gCurr, k ∈ order

/-- A loaded snapshot sheet: its column list and its rows. -/
structure Df where
  cols : List String
  rows : List Row
  deriving DecidableEq, Repr

/-- What one consecutive snapshot pair contributes to the report: either the
diagnostic line `'Part Location' column missing ...` followed by `continue`
(source lines 262-264), or the list of per-key outcomes. -/
inductive PairOutcome where
  | missingKeyColumn
  | result (deltas : List KeyDelta)
  deriving DecidableEq, Repr

/-- One iteration of the outer file loop for a pair that was read successfully
(source lines 261-375). -/
def comparePair (dfPrev dfCurr : Df) (order : List Value) : PairOutcome :=
  if dfPrev.cols.contains "Part Location" && dfCurr.cols.contains "Part Location" then
    PairOutcome.result (compareAll (groupsOf dfPrev.rows) (groupsOf dfCurr.rows) order)
  else PairOutcome.missingKeyColumn

/-- The consecutive pairs `(file_paths[i-1], file_paths[i])` of the run. -/
def consecPairs (dfs : List Df) : List (Df × Df) := dfs.zip dfs.tail

/-- The whole comparison run over `N ≥ 2` snapshots (source lines 249-375):
one `PairOutcome` per consecutive pair, each computed independently.  `ord`
supplies the set-enumeration order used for each pair. -/
def runAll (ord : Df → Df → List Value) (dfs : List Df) : List PairOutcome :=
  (consecPairs dfs).map fun pr => comparePair pr.1 pr.2 (ord pr.1 pr.2)

/-- No previous-side row is field-wise equal to any current-side row. -/
abbrev noCross (ps cs : List Row) : Prop :=
  ∀ p ∈ ps, ∀ c ∈ cs, dictBeq p c = false

/-- The records a row delta refers to. -/
def refRecords : RowDelta → List Row
  | RowDelta.removedRow r => [r]
  | RowDelta.addedRow r => [r]
  | RowDelta.changedRow p c => [p, c]

def refsOf (ds : List RowDelta) : List Row := ds.flatMap refRecords

def keyOfDelta : KeyDelta → Value
  | KeyDelta.added k _ => k
  | KeyDelta.removed k _ => k
  | KeyDelta.changed k _ => k
  | KeyDelta.unchanged k => k

/-- The row deltas carried by a key delta. -/
def rowDeltasOf : KeyDelta → List RowDelta
  | KeyDelta.changed _ ds => ds
  | _ => []

/-- A `changes` entry with a python `None` on at least one side. -/
def oneSided (ch : Change) : Prop := ch.1 = none ∨ ch.2 = none

/-! ### Concrete inputs used by the witnesses and counterexamples -/

/-- Scenario 5's record A at location L5. -/
def rowA5 : Row := [("Part Location", Value.str "L5"), ("M", Value.str "x")]

/-- Scenario 5's record B at location L5. -/
def rowB5 : Row := [("Part Location", Value.str "L5"), ("M", Value.str "y")]

/-- Scenario 1's previous record: PartNumber PN1 at location L1. -/
def rowPN1 : Row := [("Part Location", Value.str "L1"), ("PN", Value.str "PN1")]

/-- Scenario 1's current record: PartNumber PN2 at location L1. -/
def rowPN2 : Row := [("Part Location", Value.str "L1"), ("PN", Value.str "PN2")]

/-- A record present only under key K1. -/
def rowK1 : Row := [("Part Location", Value.str "K1"), ("M", Value.str "1")]

/-- A record present only under key K2. -/
def rowK2 : Row := [("Part Location", Value.str "K2"), ("M", Value.str "2")]

/-- A record consisting of nothing but the key column. -/
def rowOnlyKey : Row := [("Part Location", Value.str "K")]

/-- A record at key K with one extra column X. -/
def rowKX : Row := [("Part Location", Value.str "K"), ("X", Value.str "1")]

/-- A record whose key cell is null (NaN). -/
def rowNullKey : Row := [("Part Location", Value.null), ("X", Value.str "1")]

/-- A record whose key cell is the blank string. -/
def rowBlankKey : Row := [("Part Location", Value.str ""), ("X", Value.str "2")]

/-- A snapshot with columns Part Location and A. -/
def dfA : Df := ⟨["Part Location", "A"],
  [[("Part Location", Value.str "K"), ("A", Value.str "1")]]⟩

/-- A snapshot with columns Part Location and B: its schema differs from
`dfA` beyond the key column. -/
def dfB : Df := ⟨["Part Location", "B"],
  [[("Part Location", Value.str "K"), ("B", Value.str "1")]]⟩

/-- A snapshot lacking the Part Location column entirely. -/
def dfNoKey : Df := ⟨["Other"], [[("Other", Value.str "z")]]⟩

/-- Two records sharing key L, used for reordering tests. -/
def rowL1 : Row := [("Part Location", Value.str "L"), ("M", Value.str "a")]

/-- Second record sharing key L. -/
def rowL2 : Row := [("Part Location", Value.str "L"), ("M", Value.str "b")]

/-- A current-side record at key L differing from both `rowL1` and `rowL2`. -/
def rowL3 : Row := [("Part Location", Value.str "L"), ("M", Value.str "c")]

/-! ### Basic properties of the scan and the two passes -/

theorem dictBeq_symm (a b : Row) : dictBeq a b = dictBeq b a := by
  unfold dictBeq; exact Bool.and_comm _ _

theorem scanFor_none_of (m : List Nat) (x : Row) (cs : List Row)
    (h : ∀ c ∈ cs, dictBeq x c = false) : ∀ i, scanFor m x i cs = none := by
  induction cs with
  | nil => intro i; rfl
  | cons c cs ih =>
    intro i
    rw [scanFor, h c (List.mem_cons_self c cs), Bool.and_false, if_neg (by simp)]
    exact ih (fun c' hc' => h c' (List.mem_cons_of_mem c hc')) (i + 1)

theorem scanFor_nil_false (x : Row) (cs : List Row) :
    ∀ i, scanFor [] x i cs = none → ∀ c ∈ cs, dictBeq x c = false := by
  induction cs with
  | nil => intro i _ c hc; exact absurd hc (List.not_mem_nil c)
  | cons c cs ih =>
    intro i hscan c' hc'
    rw [scanFor] at hscan
    cases hbeq : dictBeq x c with
    | true => rw [hbeq] at hscan; simp at hscan
    | false =>
      rw [hbeq, Bool.and_false, if_neg (by simp)] at hscan
      rcases List.mem_cons.mp hc' with h1 | h2
      · rw [h1]; exact hbeq
      · exact ih (i + 1) hscan c' h2

theorem firstPassGo_mono (cs ps : List Row) :
    ∀ pIdx st, ∃ e1 e2 e3,
      (firstPassGo cs pIdx ps st).matchedPrev = st.matchedPrev ++ e1 ∧
      (firstPassGo cs pIdx ps st).matchedCurr = st.matchedCurr ++ e2 ∧
      (firstPassGo cs pIdx ps st).changes = st.changes ++ e3 := by
  induction ps with
  | nil =>
    intro pIdx st
    exact ⟨[], [], [], by simp [firstPassGo], by simp [firstPassGo], by simp [firstPassGo]⟩
  | cons p ps ih =>
    intro pIdx st
    cases hscan : scanFor st.matchedCurr p 0 cs with
    | some cIdx =>
      obtain ⟨e1, e2, e3, h1, h2, h3⟩ :=
        ih (pIdx + 1) ⟨st.matchedPrev ++ [pIdx], st.matchedCurr ++ [cIdx], st.changes⟩
      refine ⟨[pIdx] ++ e1, [cIdx] ++ e2, e3, ?_, ?_, ?_⟩
      · rw [firstPassGo, hscan]; simpa [List.append_assoc] using h1
      · rw [firstPassGo, hscan]; simpa [List.append_assoc] using h2
      · rw [firstPassGo, hscan]; simpa using h3
    | none =>
      obtain ⟨e1, e2, e3, h1, h2, h3⟩ :=
        ih (pIdx + 1) ⟨st.matchedPrev, st.matchedCurr, st.changes ++ [(some p, none)]⟩
      refine ⟨e1, e2, [(some p, none)] ++ e3, ?_, ?_, ?_⟩
      · rw [firstPassGo, hscan]; simpa using h1
      · rw [firstPassGo, hscan]; simpa using h2
      · rw [firstPassGo, hscan]; simpa [List.append_assoc] using h3

theorem secondPassGo_mpMono (ps cs : List Row) :
    ∀ cIdx st, ∃ e, (secondPassGo ps cIdx cs st).matchedPrev = st.matchedPrev ++ e := by
  induction cs with
  | nil => intro cIdx st; exact ⟨[], by simp [secondPassGo]⟩
  | cons c cs ih =>
    intro cIdx st
    rw [secondPassGo]
    by_cases hm : st.matchedCurr.contains cIdx
    · rw [if_pos hm]; exact ih (cIdx + 1) st
    · rw [if_neg hm]
      cases hscan : scanFor st.matchedPrev c 0 ps with
      | some pIdx =>
        obtain ⟨e, he⟩ :=
          ih (cIdx + 1) ⟨st.matchedPrev ++ [pIdx], st.matchedCurr ++ [cIdx], st.changes⟩
        exact ⟨[pIdx] ++ e, by simpa [List.append_assoc] using he⟩
      | none =>
        obtain ⟨e, he⟩ :=
          ih (cIdx + 1) ⟨st.matchedPrev, st.matchedCurr, st.changes ++ [(none, some c)]⟩
        exact ⟨e, by simpa using he⟩

theorem firstPassGo_fixed (cs ps : List Row) :
    ∀ pIdx st, (firstPassGo cs pIdx ps st).matchedPrev = st.matchedPrev →
      firstPassGo cs pIdx ps st =
        ⟨st.matchedPrev, st.matchedCurr,
          st.changes ++ ps.map fun p => ((some p, none) : Change)⟩ ∧
      ∀ p ∈ ps, scanFor st.matchedCurr p 0 cs = none := by
  induction ps with
  | nil =>
    intro pIdx st _
    refine ⟨by simp [firstPassGo], ?_⟩
    intro p hp; exact absurd hp (List.not_mem_nil p)
  | cons p ps ih =>
    intro pIdx st hfix
    cases hscan : scanFor st.matchedCurr p 0 cs with
    | some cIdx =>
      exfalso
      rw [firstPassGo, hscan] at hfix
      obtain ⟨e1, _, _, h1, _, _⟩ :=
        firstPassGo_mono cs ps (pIdx + 1)
          ⟨st.matchedPrev ++ [pIdx], st.matchedCurr ++ [cIdx], st.changes⟩
      rw [h1] at hfix
      simp at hfix
    | none =>
      rw [firstPassGo, hscan] at hfix ⊢
      obtain ⟨heq, hscans⟩ :=
        ih (pIdx + 1) ⟨st.matchedPrev, st.matchedCurr, st.changes ++ [(some p, none)]⟩ hfix
      refine ⟨by rw [heq]; simp, ?_⟩
      intro q hq
      rcases List.mem_cons.mp hq with h1 | h2
      · rw [h1]; exact hscan
      · exact hscans q h2

theorem firstPassGo_noCross (cs ps : List Row) :
    ∀ pIdx st, (∀ p ∈ ps, ∀ c ∈ cs, dictBeq p c = false) →
      firstPassGo cs pIdx ps st =
        ⟨st.matchedPrev, st.matchedCurr,
          st.changes ++ ps.map fun p => ((some p, none) : Change)⟩ := by
  induction ps with
  | nil => intro pIdx st _; simp [firstPassGo]
  | cons p ps ih =>
    intro pIdx st h
    rw [firstPassGo,
      scanFor_none_of st.matchedCurr p cs (h p (List.mem_cons_self p ps)) 0]
    rw [ih (pIdx + 1) _ (fun q hq => h q (List.mem_cons_of_mem p hq))]
    simp

theorem secondPassGo_noCross (ps cs : List Row) :
    ∀ cIdx st, st.matchedCurr = [] →
      (∀ c ∈ cs, ∀ p ∈ ps, dictBeq c p = false) →
      secondPassGo ps cIdx cs st =
        ⟨st.matchedPrev, st.matchedCurr,
          st.changes ++ cs.map fun c => ((none, some c) : Change)⟩ := by
  induction cs with
  | nil => intro cIdx st _ _; simp [secondPassGo]
  | cons c cs ih =>
    intro cIdx st hmc h
    rw [secondPassGo, hmc, if_neg (by simp),
      scanFor_none_of st.matchedPrev c ps (h c (List.mem_cons_self c cs)) 0]
    have hrec := ih (cIdx + 1) ⟨st.matchedPrev, [], st.changes ++ [(none, some c)]⟩ rfl
      (fun q hq p hp => h q (List.mem_cons_of_mem c hq) p hp)
    exact hrec.trans (by simp [hmc])

theorem matchRows_noCross (ps cs : List Row) (h : noCross ps cs) :
    matchRows ps cs =
      ⟨[], [], (ps.map fun p => ((some p, none) : Change)) ++
        cs.map fun c => ((none, some c) : Change)⟩ := by
  unfold matchRows
  rw [firstPassGo_noCross cs ps 0 ⟨[], [], []⟩ h]
  rw [secondPassGo_noCross ps cs 0 _ rfl
    (fun c hc p hp => by rw [dictBeq_symm]; exact h p hp c hc)]
  simp

theorem noCross_of_matchedPrev_nil (ps cs : List Row)
    (h : (matchRows ps cs).matchedPrev = []) : noCross ps cs := by
  unfold matchRows at h
  obtain ⟨e, he⟩ := secondPassGo_mpMono ps cs 0 (firstPassGo cs 0 ps ⟨[], [], []⟩)
  rw [he] at h
  have hfp : (firstPassGo cs 0 ps ⟨[], [], []⟩).matchedPrev = [] :=
    (List.append_eq_nil.mp h).1
  obtain ⟨_, hscans⟩ := firstPassGo_fixed cs ps 0 ⟨[], [], []⟩ hfp
  intro p hp c hc
  exact scanFor_nil_false p cs 0 (hscans p hp) c hc

theorem matchedPrev_nil_iff (ps cs : List Row) :
    (matchRows ps cs).matchedPrev = [] ↔ noCross ps cs :=
  ⟨noCross_of_matchedPrev_nil ps cs, fun h => by rw [matchRows_noCross ps cs h]⟩

theorem firstPassGo_oneSided (cs ps : List Row) :
    ∀ pIdx st, (∀ ch ∈ st.changes, oneSided ch) →
      ∀ ch ∈ (firstPassGo cs pIdx ps st).changes, oneSided ch := by
  induction ps with
  | nil => intro pIdx st h; exact h
  | cons p ps ih =>
    intro pIdx st h
    cases hscan : scanFor st.matchedCurr p 0 cs with
    | some cIdx =>
      rw [firstPassGo, hscan]
      exact ih (pIdx + 1) _ h
    | none =>
      rw [firstPassGo, hscan]
      refine ih (pIdx + 1) _ ?_
      intro ch hch
      rcases List.mem_append.mp hch with h1 | h2
      · exact h ch h1
      · rw [List.mem_singleton.mp h2]; exact Or.inr rfl

theorem secondPassGo_oneSided (ps cs : List Row) :
    ∀ cIdx st, (∀ ch ∈ st.changes, oneSided ch) →
      ∀ ch ∈ (secondPassGo ps cIdx cs st).changes, oneSided ch := by
  induction cs with
  | nil => intro cIdx st h; exact h
  | cons c cs ih =>
    intro cIdx st h
    rw [secondPassGo]
    by_cases hm : st.matchedCurr.contains cIdx
    · rw [if_pos hm]; exact ih (cIdx + 1) st h
    · rw [if_neg hm]
      cases hscan : scanFor st.matchedPrev c 0 ps with
      | some pIdx => exact ih (cIdx + 1) _ h
      | none =>
        refine ih (cIdx + 1) _ ?_
        intro ch hch
        rcases List.mem_append.mp hch with h1 | h2
        · exact h ch h1
        · rw [List.mem_singleton.mp h2]; exact Or.inl rfl

theorem matchRows_oneSided (ps cs : List Row) :
    ∀ ch ∈ (matchRows ps cs).changes, oneSided ch := by
  unfold matchRows
  refine secondPassGo_oneSided ps cs 0 _ (firstPassGo_oneSided cs ps 0 _ ?_)
  intro ch hch; exact absurd hch (List.not_mem_nil ch)

theorem classify_not_changedRow (ch : Change) (h : oneSided ch) (p c : Row) :
    classifyChange ch ≠ some (RowDelta.changedRow p c) := by
  rcases h with h1 | h2
  · rw [classifyChange, h1]
    cases ht : truthy ch.2 <;> simp [truthy, ht]
  · rw [classifyChange, h2]
    cases ht : truthy ch.1 <;> simp [truthy, ht]

theorem filterMap_eq_map_of {α β : Type} (l : List α) (f : α → Option β) (g : α → β)
    (h : ∀ x ∈ l, f x = some (g x)) : l.filterMap f = l.map g := by
  induction l with
  | nil => rfl
  | cons a l ih =>
    simp only [List.filterMap_cons, h a (List.mem_cons_self a l), List.map_cons,
      ih fun x hx => h x (List.mem_cons_of_mem a hx)]

theorem isEmpty_false_of_ne_nil {α : Type} (l : List α) (h : l ≠ []) :
    l.isEmpty = false := by
  cases l with
  | nil => exact absurd rfl h
  | cons a l => rfl

theorem classify_removed (x : Row) (hx : x.isEmpty = false) :
    classifyChange (some x, none) = some (RowDelta.removedRow x) := by
  simp [classifyChange, truthy, hx]

theorem classify_added (x : Row) (hx : x.isEmpty = false) :
    classifyChange (none, some x) = some (RowDelta.addedRow x) := by
  simp [classifyChange, truthy, hx]

/-- With zero matches and non-empty groups, the source emits a section whose
`changes` list every previous row (as a removed-side entry) followed by every
current row (as an added-side entry). -/
theorem compareRowsOpt_noCross (P C : List Row) (hPne : P ≠ []) (hCne : C ≠ [])
    (hnc : noCross (P.map dropKey) (C.map dropKey)) :
    compareRowsOpt P C = some
      (((P.map dropKey).map (fun p => ((some p, none) : Change)) ++
        (C.map dropKey).map fun c => ((none, some c) : Change)).filterMap
          classifyChange) := by
  unfold compareRowsOpt
  rw [isEmpty_false_of_ne_nil P hPne, isEmpty_false_of_ne_nil C hCne,
    matchRows_noCross _ _ hnc]
  rw [if_pos (by simp)]
  rw [if_pos (by simp [hPne])]

/-- When no previous row equals any current row and every key-dropped row is
non-empty, the emitted section lists every previous row as removed and every
current row as added. -/
theorem compareKey_noCross_shape (gp gc : Groups) (k : Value) (P C : List Row)
    (hp : lookupGroup gp k = some P) (hc : lookupGroup gc k = some C)
    (hPne : P ≠ []) (hCne : C ≠ [])
    (hnc : noCross (P.map dropKey) (C.map dropKey))
    (hPt : ∀ r ∈ P, (dropKey r).isEmpty = false)
    (hCt : ∀ r ∈ C, (dropKey r).isEmpty = false) :
    compareKey gp gc k =
      KeyDelta.changed k ((P.map dropKey).map RowDelta.removedRow ++
        (C.map dropKey).map RowDelta.addedRow) := by
  have hopt : compareRowsOpt P C =
      some ((P.map dropKey).map RowDelta.removedRow ++
        (C.map dropKey).map RowDelta.addedRow) := by
    rw [compareRowsOpt_noCross P C hPne hCne hnc]
    congr 1
    simp only [List.filterMap_append, List.filterMap_map, List.map_map]
    rw [filterMap_eq_map_of P
        (classifyChange ∘ (fun p => ((some p, none) : Change)) ∘ dropKey)
        (RowDelta.removedRow ∘ dropKey)
        (fun r hr => classify_removed (dropKey r) (hPt r hr)),
      filterMap_eq_map_of C
        (classifyChange ∘ (fun c => ((none, some c) : Change)) ∘ dropKey)
        (RowDelta.addedRow ∘ dropKey)
        (fun r hr => classify_added (dropKey r) (hCt r hr))]
  unfold compareKey
  rw [hp, hc]
  simp only [hopt]

/-! ### The second pass never finds a match (claim C10 machinery) -/

theorem contains_false_iff (l : List Nat) (a : Nat) : l.contains a = false ↔ a ∉ l := by
  simp [List.contains]

theorem contains_append_false (l1 l2 : List Nat) (a : Nat) :
    (l1 ++ l2).contains a = false ↔ l1.contains a = false ∧ l2.contains a = false := by
  simp [List.contains, not_or]

theorem scanFor_none_idx (m : List Nat) (x : Row) (cs : List Row) :
    ∀ i, scanFor m x i cs = none →
      ∀ j (hj : j < cs.length), m.contains (i + j) = false →
        dictBeq x (cs.get ⟨j, hj⟩) = false := by
  induction cs with
  | nil => intro i _ j hj; exact absurd hj (by simp)
  | cons c cs ih =>
    intro i hscan j hj hfree
    have hstep : (!(m.contains i) && dictBeq x c) = false ∧
        scanFor m x (i + 1) cs = none := by
      rw [scanFor] at hscan
      by_cases hcond : (!(m.contains i) && dictBeq x c) = true
      · rw [if_pos hcond] at hscan; exact absurd hscan (by simp)
      · rw [if_neg hcond] at hscan
        exact ⟨Bool.eq_false_iff.mpr hcond, hscan⟩
    cases j with
    | zero =>
      have hm : m.contains i = false := by simpa using hfree
      have hx : dictBeq x c = false := by
        have h1 := hstep.1
        rw [hm] at h1
        simpa using h1
      exact hx
    | succ j' =>
      have hj' : j' < cs.length := by simpa using Nat.lt_of_succ_lt_succ hj
      have hfree' : m.contains (i + 1 + j') = false := by
        rw [show i + 1 + j' = i + (j' + 1) from by omega]; exact hfree
      exact ih (i + 1) hstep.2 j' hj' hfree'

theorem scanFor_none_of_idx (m : List Nat) (x : Row) (cs : List Row) :
    ∀ i, (∀ j (hj : j < cs.length), m.contains (i + j) = false →
        dictBeq x (cs.get ⟨j, hj⟩) = false) →
      scanFor m x i cs = none := by
  induction cs with
  | nil => intro i _; rfl
  | cons c cs ih =>
    intro i h
    rw [scanFor]
    have hcond : (!(m.contains i) && dictBeq x c) = false := by
      cases hm : m.contains i with
      | true => simp
      | false =>
        have hx := h 0 (by simp) (by simpa using hm)
        simpa [hm] using hx
    rw [hcond, if_neg (by simp)]
    refine ih (i + 1) ?_
    intro j hj hfree
    have hj1 : j + 1 < (c :: cs).length := by simpa using Nat.succ_lt_succ hj
    exact h (j + 1) hj1
      (by rw [show i + (j + 1) = i + 1 + j from by omega]; exact hfree)

/-- The joint invariant of the first pass: every unmatched processed previous
row is field-wise unequal to every unmatched current row. -/
theorem firstPassGo_inv (cs ps : List Row) :
    ∀ (suffix : List Row) (pIdx : Nat) (st : MSt),
      ps.drop pIdx = suffix →
      (∀ i ∈ st.matchedPrev, i < pIdx) →
      (∀ i (hi : i < ps.length), i < pIdx → st.matchedPrev.contains i = false →
        ∀ j (hj : j < cs.length), st.matchedCurr.contains j = false →
          dictBeq (ps.get ⟨i, hi⟩) (cs.get ⟨j, hj⟩) = false) →
      ∀ i (hi : i < ps.length),
          (firstPassGo cs pIdx suffix st).matchedPrev.contains i = false →
        ∀ j (hj : j < cs.length),
            (firstPassGo cs pIdx suffix st).matchedCurr.contains j = false →
          dictBeq (ps.get ⟨i, hi⟩) (cs.get ⟨j, hj⟩) = false := by
  intro suffix
  induction suffix with
  | nil =>
    intro pIdx st hdrop ha hb
    have hlen : ps.length ≤ pIdx := by
      have h2 : (ps.drop pIdx).length = 0 := by rw [hdrop]; rfl
      rw [List.length_drop] at h2
      omega
    intro i hi hfree j hj hfreec
    exact hb i hi (Nat.lt_of_lt_of_le hi hlen) hfree j hj hfreec
  | cons p rest ih =>
    intro pIdx st hdrop ha hb
    have hlt : pIdx < ps.length := by
      by_contra hge
      push_neg at hge
      rw [List.drop_eq_nil_of_le hge] at hdrop
      exact absurd hdrop (by simp)
    have hcons := List.drop_eq_getElem_cons hlt
    rw [hdrop] at hcons
    have hinj := (List.cons.injEq _ _ _ _).mp hcons.symm
    have hp : p = ps.get ⟨pIdx, hlt⟩ := hinj.1.symm
    have hdrop' : ps.drop (pIdx + 1) = rest := hinj.2
    cases hscan : scanFor st.matchedCurr p 0 cs with
    | some cIdx =>
      rw [firstPassGo, hscan]
      refine ih (pIdx + 1)
        ⟨st.matchedPrev ++ [pIdx], st.matchedCurr ++ [cIdx], st.changes⟩ hdrop' ?_ ?_
      · intro i himem
        rcases List.mem_append.mp himem with h1 | h2
        · exact Nat.lt_succ_of_lt (ha i h1)
        · rw [List.mem_singleton.mp h2]; exact Nat.lt_succ_self pIdx
      · intro i hi hip hfree j hj hfreec
        have hfree' := (contains_append_false _ _ _).mp hfree
        have hfreec' := (contains_append_false _ _ _).mp hfreec
        have hine : i ≠ pIdx := by
          intro heq
          rw [heq] at hfree'
          have := hfree'.2
          simp [List.contains] at this
        exact hb i hi (by omega) hfree'.1 j hj hfreec'.1
    | none =>
      rw [firstPassGo, hscan]
      refine ih (pIdx + 1)
        ⟨st.matchedPrev, st.matchedCurr, st.changes ++ [(some p, none)]⟩ hdrop' ?_ ?_
      · intro i himem; exact Nat.lt_succ_of_lt (ha i himem)
      · intro i hi hip hfree j hj hfreec
        by_cases hie : i = pIdx
        · subst hie
          have := scanFor_none_idx st.matchedCurr p cs 0 hscan j hj
            (by simpa using hfreec)
          rw [hp] at this
          exact this
        · exact hb i hi (by omega) hfree j hj hfreec

/-- Given the first-pass invariant, the rescanning second pass takes the
no-match branch at every step, so it coincides with the rescan-free one. -/
theorem secondPassGo_eq_simple (ps cs : List Row) :
    ∀ (suffix : List Row) (cIdx : Nat) (st : MSt),
      cs.drop cIdx = suffix →
      (∀ j (hj : j < cs.length), st.matchedCurr.contains j = false →
        ∀ i (hi : i < ps.length), st.matchedPrev.contains i = false →
          dictBeq (cs.get ⟨j, hj⟩) (ps.get ⟨i, hi⟩) = false) →
      secondPassGo ps cIdx suffix st = simpleSecondGo cIdx suffix st := by
  intro suffix
  induction suffix with
  | nil => intro cIdx st _ _; rfl
  | cons c rest ih =>
    intro cIdx st hdrop hinv
    have hlt : cIdx < cs.length := by
      have h2 : (cs.drop cIdx).length = rest.length + 1 := by rw [hdrop]; rfl
      rw [List.length_drop] at h2
      omega
    have hcons := List.drop_eq_getElem_cons hlt
    rw [hdrop] at hcons
    have hinj := (List.cons.injEq _ _ _ _).mp hcons.symm
    have hc : c = cs.get ⟨cIdx, hlt⟩ := hinj.1.symm
    have hdrop' : cs.drop (cIdx + 1) = rest := hinj.2
    rw [secondPassGo, simpleSecondGo]
    by_cases hm : st.matchedCurr.contains cIdx = true
    · rw [if_pos hm, if_pos hm]
      exact ih (cIdx + 1) st hdrop' hinv
    · rw [if_neg hm, if_neg hm]
      have hscan : scanFor st.matchedPrev c 0 ps = none := by
        refine scanFor_none_of_idx st.matchedPrev c ps 0 ?_
        intro i hi hfree
        rw [hc]
        exact hinv cIdx hlt (Bool.eq_false_iff.mpr hm) i hi (by simpa using hfree)
      rw [hscan]
      exact ih (cIdx + 1) ⟨st.matchedPrev, st.matchedCurr, st.changes ++ [(none, some c)]⟩
        hdrop' hinv

theorem matchRows_eq_simple (ps cs : List Row) :
    matchRows ps cs = matchRowsSimple ps cs := by
  unfold matchRows matchRowsSimple
  refine secondPassGo_eq_simple ps cs cs 0 (firstPassGo cs 0 ps ⟨[], [], []⟩) (by simp) ?_
  intro j hj hfreec i hi hfreep
  rw [dictBeq_symm]
  refine firstPassGo_inv cs ps ps 0 ⟨[], [], []⟩ (by simp) ?_ ?_ i hi hfreep j hj hfreec
  · intro i' hmem; exact absurd hmem (List.not_mem_nil i')
  · intro i' hi' h0; exact absurd h0 (Nat.not_lt_zero i')

/-! ### Helpers about the emitted key deltas -/

theorem compareRowsOpt_none_of_matched (P C : List Row)
    (h : (matchRows (P.map dropKey) (C.map dropKey)).matchedPrev.length ≠ 0) :
    compareRowsOpt P C = none := by
  unfold compareRowsOpt
  by_cases hg : (!P.isEmpty && !C.isEmpty) = true
  · rw [if_pos hg]
    have hcond : (!(matchRows (P.map dropKey) (C.map dropKey)).changes.isEmpty &&
        ((matchRows (P.map dropKey) (C.map dropKey)).matchedPrev.length == 0)) = false := by
      have hne : ((matchRows (P.map dropKey) (C.map dropKey)).matchedPrev.length == 0)
          = false := by simpa using h
      rw [hne, Bool.and_false]
    rw [hcond, if_neg (by simp)]
  · rw [if_neg hg]

theorem compareRowsOpt_some_guards (P C : List Row) (ds : List RowDelta)
    (h : compareRowsOpt P C = some ds) :
    P ≠ [] ∧ C ≠ [] ∧ (matchRows (P.map dropKey) (C.map dropKey)).matchedPrev = [] ∧
    ds = (matchRows (P.map dropKey) (C.map dropKey)).changes.filterMap classifyChange := by
  unfold compareRowsOpt at h
  by_cases hg : (!P.isEmpty && !C.isEmpty) = true
  · have hg' := (Bool.and_eq_true _ _).mp hg
    rw [if_pos hg] at h
    by_cases h2 : (!(matchRows (P.map dropKey) (C.map dropKey)).changes.isEmpty &&
        ((matchRows (P.map dropKey) (C.map dropKey)).matchedPrev.length == 0)) = true
    · rw [if_pos h2] at h
      have h2' := (Bool.and_eq_true _ _).mp h2
      refine ⟨?_, ?_, ?_, ?_⟩
      · intro hP; rw [hP] at hg'; simp at hg'
      · intro hC; rw [hC] at hg'; simp at hg'
      · have hlen : (matchRows (P.map dropKey) (C.map dropKey)).matchedPrev.length = 0 := by
          simpa using h2'.2
        exact List.eq_nil_of_length_eq_zero hlen
      · exact ((Option.some.injEq _ _).mp h).symm
    · rw [if_neg h2] at h; exact absurd h (by simp)
  · rw [if_neg hg] at h; exact absurd h (by simp)

theorem no_changedRow_in_matchDeltas (P C : List Row) (p c : Row) :
    RowDelta.changedRow p c ∉
      (matchRows (P.map dropKey) (C.map dropKey)).changes.filterMap classifyChange := by
  intro hmem
  obtain ⟨ch, hch, hcl⟩ := List.mem_filterMap.mp hmem
  exact classify_not_changedRow ch (matchRows_oneSided _ _ ch hch) p c hcl

theorem rowDeltasOf_compareKey (gp gc : Groups) (k : Value) (P C : List Row)
    (hp : lookupGroup gp k = some P) (hc : lookupGroup gc k = some C) :
    rowDeltasOf (compareKey gp gc k) = (compareRowsOpt P C).getD [] := by
  cases hopt : compareRowsOpt P C with
  | none => simp only [compareKey, hp, hc, hopt]; rfl
  | some ds => simp only [compareKey, hp, hc, hopt]; rfl

theorem compareKey_keyOf (gp gc : Groups) (k : Value) :
    keyOfDelta (compareKey gp gc k) = k := by
  cases hlp : lookupGroup gp k with
  | none => simp only [compareKey, hlp]; rfl
  | some P =>
    cases hlc : lookupGroup gc k with
    | none => simp only [compareKey, hlp, hlc]; rfl
    | some C =>
      cases hopt : compareRowsOpt P C with
      | none => simp only [compareKey, hlp, hlc, hopt]; rfl
      | some ds => simp only [compareKey, hlp, hlc, hopt]; rfl

theorem countP_congr_of {α : Type} (l : List α) (p q : α → Bool)
    (h : ∀ x ∈ l, p x = q x) : l.countP p = l.countP q := by
  induction l with
  | nil => rfl
  | cons a l ih =>
    rw [List.countP_cons, List.countP_cons, h a (List.mem_cons_self a l),
      ih fun x hx => h x (List.mem_cons_of_mem a hx)]

theorem lookupGroup_none_iff (g : Groups) (k : Value) :
    lookupGroup g k = none ↔ k ∉ keysOf g := by
  unfold lookupGroup keysOf
  rw [Option.map_eq_none', List.find?_eq_none]
  constructor
  · intro h hk
    obtain ⟨e, he, heq⟩ := List.mem_map.mp hk
    exact h e he (by simpa using heq)
  · intro h e he heq
    exact h (List.mem_map.mpr ⟨e, he, by simpa using heq⟩)

theorem compareKey_bothSome_shape (gp gc : Groups) (k : Value) (P C : List Row)
    (hp : lookupGroup gp k = some P) (hc : lookupGroup gc k = some C) :
    compareKey gp gc k = KeyDelta.unchanged k ∨
    ∃ ds, compareKey gp gc k = KeyDelta.changed k ds := by
  cases hopt : compareRowsOpt P C with
  | none => left; simp only [compareKey, hp, hc, hopt]
  | some ds => right; exact ⟨ds, by simp only [compareKey, hp, hc, hopt]⟩

theorem lookupCol_dropKey (r : Row) (col : String) (h : col ≠ "Part Location") :
    lookupCol (dropKey r) col = lookupCol r col := by
  induction r with
  | nil => rfl
  | cons kv r ih =>
    rw [dropKey, List.filter_cons]
    by_cases hk : (kv.1 != "Part Location") = true
    · rw [if_pos hk, lookupCol, lookupCol]
      by_cases hc : kv.1 = col
      · rw [if_pos hc, if_pos hc]
      · rw [if_neg hc, if_neg hc]; exact ih
    · rw [if_neg hk, lookupCol]
      have hkeq : kv.1 = "Part Location" := by simpa using hk
      rw [if_neg (by rw [hkeq]; exact fun he => h he.symm)]
      exact ih

theorem lookupCol_some_mem (r : Row) (c : String) (v : Value)
    (h : lookupCol r c = some v) : (c, v) ∈ r := by
  induction r with
  | nil => exact absurd h (by rw [lookupCol]; simp)
  | cons kv r ih =>
    rw [lookupCol] at h
    by_cases hc : kv.1 = c
    · rw [if_pos hc] at h
      have hv : kv.2 = v := Option.some.inj h
      have : (c, v) = kv := Prod.ext hc.symm hv.symm
      rw [this]
      exact List.mem_cons_self kv r
    · rw [if_neg hc] at h
      exact List.mem_cons_of_mem kv (ih h)

/-! ## Claim C1 -/

/-- Claim C1 counterexample: key L5 with records `[A, A]` in the previous
snapshot and `[A, B]` in the current one.  The claim predicts the delta
`KeyChanged(L5, [AddedRow(B)])`; the code finds one exact match, sets
`total_matches = 1`, and therefore writes nothing at all for the key. -/
theorem c1_counterexample :
    compareKey (groupsOf [rowA5, rowA5]) (groupsOf [rowA5, rowB5]) (Value.str "L5")
        = KeyDelta.unchanged (Value.str "L5") ∧
    compareKey (groupsOf [rowA5, rowA5]) (groupsOf [rowA5, rowB5]) (Value.str "L5")
        ≠ KeyDelta.changed (Value.str "L5") [RowDelta.addedRow (dropKey rowB5)] := by
  exact ⟨by decide, by decide⟩

/-- Claim C1, amended: for a key present in both snapshots, if the greedy
matching finds at least one exact field-wise match, the remaining unmatched
records are not reported at all — the `total_matches == 0` test fails, the
section is suppressed, and the key is treated as unchanged. -/
theorem c1_leftovers_suppressed (gPrev gCurr : Groups) (k : Value) (P C : List Row)
    (hp : lookupGroup gPrev k = some P) (hc : lookupGroup gCurr k = some C)
    (hmatch : 0 < (matchRows (P.map dropKey) (C.map dropKey)).matchedPrev.length) :
    compareKey gPrev gCurr k = KeyDelta.unchanged k := by
  have hopt := compareRowsOpt_none_of_matched P C (by omega)
  simp only [compareKey, hp, hc, hopt]

/-- Claim C1 witness: the amended theorem applied at the Scenario 5 input. -/
theorem c1_witness :
    lookupGroup (groupsOf [rowA5, rowA5]) (Value.str "L5") = some [rowA5, rowA5] ∧
    lookupGroup (groupsOf [rowA5, rowB5]) (Value.str "L5") = some [rowA5, rowB5] ∧
    0 < (matchRows ([rowA5, rowA5].map dropKey)
      ([rowA5, rowB5].map dropKey)).matchedPrev.length ∧
    compareKey (groupsOf [rowA5, rowA5]) (groupsOf [rowA5, rowB5]) (Value.str "L5")
      = KeyDelta.unchanged (Value.str "L5") :=
  ⟨by decide, by decide, by decide,
    c1_leftovers_suppressed (groupsOf [rowA5, rowA5]) (groupsOf [rowA5, rowB5])
      (Value.str "L5") [rowA5, rowA5] [rowA5, rowB5]
      (by decide) (by decide) (by decide)⟩

/-! ## Claim C2 -/

/-- Claim C2 counterexample: the spec's Scenario 1 — one record per side,
differing only in the PartNumber column.  The claim predicts a single
`ChangedRow(prev, curr)`; the code emits `RemovedRow(prev)` followed by
`AddedRow(curr)` and never constructs a `ChangedRow`. -/
theorem c2_counterexample :
    compareKey (groupsOf [rowPN1]) (groupsOf [rowPN2]) (Value.str "L1")
        = KeyDelta.changed (Value.str "L1")
            [RowDelta.removedRow (dropKey rowPN1), RowDelta.addedRow (dropKey rowPN2)] ∧
    compareKey (groupsOf [rowPN1]) (groupsOf [rowPN2]) (Value.str "L1")
        ≠ KeyDelta.changed (Value.str "L1")
            [RowDelta.changedRow (dropKey rowPN1) (dropKey rowPN2)] := by
  exact ⟨by decide, by decide⟩

/-- Claim C2, amended: with zero exact matches (and rows that keep at least
one non-key column) the comparator does not pair records positionally: every
previous-side record is emitted individually as a removed row and every
current-side record as an added row, previous side first; moreover no
`ChangedRow` is ever emitted by the comparator on any input (that branch of
the report writer is unreachable). -/
theorem c2_zero_matches_individual (gPrev gCurr : Groups) (k : Value) (P C : List Row)
    (hp : lookupGroup gPrev k = some P) (hc : lookupGroup gCurr k = some C)
    (hPne : P ≠ []) (hCne : C ≠ [])
    (hnc : noCross (P.map dropKey) (C.map dropKey))
    (hPt : ∀ r ∈ P, (dropKey r).isEmpty = false)
    (hCt : ∀ r ∈ C, (dropKey r).isEmpty = false) :
    compareKey gPrev gCurr k =
      KeyDelta.changed k ((P.map dropKey).map RowDelta.removedRow ++
        (C.map dropKey).map RowDelta.addedRow) ∧
    ∀ gp' gc' k' ds p c, compareKey gp' gc' k' = KeyDelta.changed k' ds →
      RowDelta.changedRow p c ∉ ds := by
  constructor
  · exact compareKey_noCross_shape gPrev gCurr k P C hp hc hPne hCne hnc hPt hCt
  · intro gp' gc' k' ds p c hck hmem
    cases hlp : lookupGroup gp' k' with
    | none =>
      simp only [compareKey, hlp] at hck
      exact absurd hck (by simp)
    | some P' =>
      cases hlc : lookupGroup gc' k' with
      | none =>
        simp only [compareKey, hlp, hlc] at hck
        exact absurd hck (by simp)
      | some C' =>
        cases hopt : compareRowsOpt P' C' with
        | none =>
          simp only [compareKey, hlp, hlc, hopt] at hck
          exact absurd hck (by simp)
        | some ds' =>
          simp only [compareKey, hlp, hlc, hopt, KeyDelta.changed.injEq] at hck
          have hshape := (compareRowsOpt_some_guards P' C' ds' hopt).2.2.2
          rw [← hck.2, hshape] at hmem
          exact no_changedRow_in_matchDeltas P' C' p c hmem

/-- Claim C2 witness: the amended theorem applied at the Scenario 1 input. -/
theorem c2_witness :
    noCross ([rowPN1].map dropKey) ([rowPN2].map dropKey) ∧
    compareKey (groupsOf [rowPN1]) (groupsOf [rowPN2]) (Value.str "L1")
      = KeyDelta.changed (Value.str "L1")
          [RowDelta.removedRow (dropKey rowPN1), RowDelta.addedRow (dropKey rowPN2)] :=
  ⟨by decide,
    ((c2_zero_matches_individual (groupsOf [rowPN1]) (groupsOf [rowPN2])
      (Value.str "L1") [rowPN1] [rowPN2] (by decide) (by decide) (by decide)
      (by decide) (by decide) (by decide) (by decide)).1).trans (by decide)⟩

/-! ## Claim C3 -/

/-- Claim C3 counterexample: the outer loop iterates over a python set
(`all_part_locations`), whose enumeration is hash order.  Two valid
enumerations of the same two-key union yield different output sequences, so
the output is not independent of the set's iteration order and the iteration
is not explicitly sorted; byte-identical output across runs would require a
stable enumeration, which a python string-keyed set does not provide. -/
theorem c3_counterexample :
    [Value.str "K1", Value.str "K2"].Perm [Value.str "K2", Value.str "K1"] ∧
    validOrder (groupsOf [rowK1]) (groupsOf [rowK2])
      [Value.str "K1", Value.str "K2"] ∧
    validOrder (groupsOf [rowK1]) (groupsOf [rowK2])
      [Value.str "K2", Value.str "K1"] ∧
    compareAll (groupsOf [rowK1]) (groupsOf [rowK2]) [Value.str "K1", Value.str "K2"]
      ≠ compareAll (groupsOf [rowK1]) (groupsOf [rowK2])
          [Value.str "K2", Value.str "K1"] := by
  exact ⟨by decide, by decide, by decide, by decide⟩

/-- Claim C3, amended: the per-key results are a pure function of the inputs,
so for a fixed enumeration order of the key union the output is deterministic,
and any two enumeration orders produce permutations of the same key deltas;
but the emission sequence itself follows the unordered set's enumeration, not
an explicitly sorted order. -/
theorem c3_deterministic_up_to_order (gPrev gCurr : Groups)
    (order order' : List Value) (h : order.Perm order') :
    (compareAll gPrev gCurr order).Perm (compareAll gPrev gCurr order') :=
  h.map (compareKey gPrev gCurr)

/-- Claim C3 witness: the amended theorem applied at the two-key input. -/
theorem c3_witness :
    [Value.str "K1", Value.str "K2"].Perm [Value.str "K2", Value.str "K1"] ∧
    (compareAll (groupsOf [rowK1]) (groupsOf [rowK2])
        [Value.str "K1", Value.str "K2"]).Perm
      (compareAll (groupsOf [rowK1]) (groupsOf [rowK2])
        [Value.str "K2", Value.str "K1"]) :=
  ⟨by decide,
    c3_deterministic_up_to_order (groupsOf [rowK1]) (groupsOf [rowK2])
      [Value.str "K1", Value.str "K2"] [Value.str "K2", Value.str "K1"] (by decide)⟩

/-! ## Claim C4 -/

theorem flatMap_refs_removed (l : List Row) :
    (l.map RowDelta.removedRow).flatMap refRecords = l := by
  induction l with
  | nil => rfl
  | cons a l ih => simp [List.flatMap_cons, refRecords, ih]

theorem flatMap_refs_added (l : List Row) :
    (l.map RowDelta.addedRow).flatMap refRecords = l := by
  induction l with
  | nil => rfl
  | cons a l ih => simp [List.flatMap_cons, refRecords, ih]

/-- Claim C4 counterexample: a previous record consisting of nothing but the
key column.  It is part of the previous group, the key is reported as changed,
yet the record is referenced by no emitted row delta — python's truthiness
check (`if change['previous']`) drops the empty dict — so the union of
referenced records is strictly smaller than the union of the two groups. -/
theorem c4_counterexample :
    compareKey (groupsOf [rowOnlyKey]) (groupsOf [rowKX]) (Value.str "K")
      = KeyDelta.changed (Value.str "K") [RowDelta.addedRow [("X", Value.str "1")]] ∧
    dropKey rowOnlyKey ∈ [rowOnlyKey].map dropKey ∧
    dropKey rowOnlyKey ∉ refsOf [RowDelta.addedRow [("X", Value.str "1")]] := by
  exact ⟨by decide, by decide, by decide⟩

/-- Claim C4, amended: every key of the union receives exactly one key delta;
and for a changed key whose records all keep at least one non-key column, the
records referenced across its row deltas are exactly the (key-dropped) records
of the two groups.  The restriction is forced by the counterexample: a record
with no column besides the key is silently dropped from the report. -/
theorem c4_completeness (gPrev gCurr : Groups) (order : List Value)
    (hord : validOrder gPrev gCurr order) (k : Value)
    (hk : k ∈ keysOf gPrev ∨ k ∈ keysOf gCurr) :
    (compareAll gPrev gCurr order).countP (fun d => keyOfDelta d == k) = 1 ∧
    ∀ P C ds, lookupGroup gPrev k = some P → lookupGroup gCurr k = some C →
      compareKey gPrev gCurr k = KeyDelta.changed k ds →
      (∀ r ∈ P, (dropKey r).isEmpty = false) →
      (∀ r ∈ C, (dropKey r).isEmpty = false) →
      ∀ r, r ∈ refsOf ds ↔ (r ∈ P.map dropKey ∨ r ∈ C.map dropKey) := by
  constructor
  · rw [compareAll, List.countP_map]
    have hcong : order.countP ((fun d => keyOfDelta d == k) ∘ compareKey gPrev gCurr)
        = order.countP fun k' => k' == k := by
      refine countP_congr_of order _ _ ?_
      intro x hx
      show (keyOfDelta (compareKey gPrev gCurr x) == k) = (x == k)
      rw [compareKey_keyOf]
    rw [hcong]
    have hmem : k ∈ order := by
      rcases hk with h1 | h2
      · exact hord.2.2.1 k h1
      · exact hord.2.2.2 k h2
    rw [← List.count_eq_countP k order]
    exact List.count_eq_one_of_mem hord.1 hmem
  · intro P C ds hp hc hck hPt hCt r
    have hopt : compareRowsOpt P C = some ds := by
      cases hopt2 : compareRowsOpt P C with
      | none =>
        simp only [compareKey, hp, hc, hopt2] at hck
        exact absurd hck (by simp)
      | some ds' =>
        simp only [compareKey, hp, hc, hopt2, KeyDelta.changed.injEq] at hck
        rw [hck.2]
    obtain ⟨hPne, hCne, hmp, _⟩ := compareRowsOpt_some_guards P C ds hopt
    have hnc : noCross (P.map dropKey) (C.map dropKey) :=
      (matchedPrev_nil_iff _ _).mp hmp
    have hshape := compareKey_noCross_shape gPrev gCurr k P C hp hc hPne hCne hnc hPt hCt
    rw [hck] at hshape
    have hds2 : ds = (P.map dropKey).map RowDelta.removedRow ++
        (C.map dropKey).map RowDelta.addedRow :=
      ((KeyDelta.changed.injEq _ _ _ _).mp hshape).2
    rw [hds2, refsOf, List.flatMap_append, flatMap_refs_removed, flatMap_refs_added]
    exact List.mem_append

/-- Claim C4 witness: the amended theorem applied at the Scenario 1 input. -/
theorem c4_witness :
    validOrder (groupsOf [rowPN1]) (groupsOf [rowPN2]) [Value.str "L1"] ∧
    (Value.str "L1" ∈ keysOf (groupsOf [rowPN1]) ∨
      Value.str "L1" ∈ keysOf (groupsOf [rowPN2])) ∧
    ((compareAll (groupsOf [rowPN1]) (groupsOf [rowPN2]) [Value.str "L1"]).countP
        (fun d => keyOfDelta d == Value.str "L1") = 1 ∧
      ∀ P C ds, lookupGroup (groupsOf [rowPN1]) (Value.str "L1") = some P →
        lookupGroup (groupsOf [rowPN2]) (Value.str "L1") = some C →
        compareKey (groupsOf [rowPN1]) (groupsOf [rowPN2]) (Value.str "L1")
          = KeyDelta.changed (Value.str "L1") ds →
        (∀ r ∈ P, (dropKey r).isEmpty = false) →
        (∀ r ∈ C, (dropKey r).isEmpty = false) →
        ∀ r, r ∈ refsOf ds ↔ (r ∈ P.map dropKey ∨ r ∈ C.map dropKey)) :=
  ⟨by decide, by decide,
    c4_completeness (groupsOf [rowPN1]) (groupsOf [rowPN2]) [Value.str "L1"]
      (by decide) (Value.str "L1") (by decide)⟩

/-! ## Claim C5 -/

/-- Claim C5 counterexample: one record whose key cell is null.  The claim
says it is still grouped, under the null key; pandas `groupby` (default
`dropna=True`) drops it instead, so the grouping is empty and the record
belongs to no group. -/
theorem c5_counterexample :
    keyValOf rowNullKey = Value.null ∧ groupsOf [rowNullKey] = [] := by
  exact ⟨by decide, by decide⟩

/-- Claim C5, amended: a record with a non-null key value (a blank string
included) is grouped under that key value, but a record whose key cell is
null/NaN is silently dropped by the grouping and belongs to no group; the
missing-key-column condition is checked at snapshot level, not per record. -/
theorem c5_grouping (rows : List Row) (r : Row) (hr : r ∈ rows) :
    (keyValOf r ≠ Value.null →
      (keyValOf r, rows.filter fun x => keyValOf x == keyValOf r) ∈ groupsOf rows ∧
      r ∈ rows.filter fun x => keyValOf x == keyValOf r) ∧
    (keyValOf r = Value.null → ∀ e ∈ groupsOf rows, r ∉ e.2) := by
  constructor
  · intro hnn
    constructor
    · unfold groupsOf
      refine List.mem_map.mpr ⟨keyValOf r, ?_, rfl⟩
      unfold keyValsOf
      refine List.mem_dedup.mpr ?_
      refine List.mem_filter.mpr ⟨List.mem_map.mpr ⟨r, hr, rfl⟩, ?_⟩
      simpa using hnn
    · exact List.mem_filter.mpr ⟨hr, by simp⟩
  · intro hnull e he hmem
    unfold groupsOf at he
    obtain ⟨v, hv, rfl⟩ := List.mem_map.mp he
    have hvnn : v ≠ Value.null := by
      unfold keyValsOf at hv
      have h2 := (List.mem_filter.mp (List.mem_dedup.mp hv)).2
      simpa using h2
    have h3 := (List.mem_filter.mp hmem).2
    have heq : keyValOf r = v := by simpa using h3
    exact hvnn (heq.symm.trans hnull)

/-- Claim C5 witness: a blank-string key is grouped (while the null-keyed
record of the same snapshot is not). -/
theorem c5_witness :
    rowBlankKey ∈ [rowBlankKey, rowNullKey] ∧
    ((keyValOf rowBlankKey ≠ Value.null →
      (keyValOf rowBlankKey,
        [rowBlankKey, rowNullKey].filter fun x => keyValOf x == keyValOf rowBlankKey)
          ∈ groupsOf [rowBlankKey, rowNullKey] ∧
      rowBlankKey ∈ [rowBlankKey, rowNullKey].filter
        fun x => keyValOf x == keyValOf rowBlankKey) ∧
    (keyValOf rowBlankKey = Value.null →
      ∀ e ∈ groupsOf [rowBlankKey, rowNullKey], rowBlankKey ∉ e.2)) :=
  ⟨by decide, c5_grouping [rowBlankKey, rowNullKey] rowBlankKey (by decide)⟩

/-! ## Claim C6 -/

/-- Claim C6 counterexample: `dfA` and `dfB` differ in their non-key columns;
the comparator has no schema check, silently proceeds, and misclassifies the
single row as removed+added instead of reporting a schema mismatch. -/
theorem c6_counterexample :
    dfA.cols ≠ dfB.cols ∧
    comparePair dfA dfB [Value.str "K"]
      = PairOutcome.result [KeyDelta.changed (Value.str "K")
          [RowDelta.removedRow [("A", Value.str "1")],
           RowDelta.addedRow [("B", Value.str "1")]]] := by
  exact ⟨by decide, by decide⟩

/-- Claim C6, amended: no SchemaMismatch detection exists.  When a non-key
column is present in every previous record and absent from every current
record, field-wise equality fails for every cross pair and the comparator
silently reports every row as removed or added. -/
theorem c6_no_schema_check (gPrev gCurr : Groups) (k : Value) (P C : List Row)
    (col : String)
    (hp : lookupGroup gPrev k = some P) (hc : lookupGroup gCurr k = some C)
    (hPne : P ≠ []) (hCne : C ≠ []) (hcol : col ≠ "Part Location")
    (hPcol : ∀ r ∈ P, (lookupCol r col).isSome = true)
    (hCcol : ∀ r ∈ C, lookupCol r col = none)
    (hPt : ∀ r ∈ P, (dropKey r).isEmpty = false)
    (hCt : ∀ r ∈ C, (dropKey r).isEmpty = false) :
    compareKey gPrev gCurr k =
      KeyDelta.changed k ((P.map dropKey).map RowDelta.removedRow ++
        (C.map dropKey).map RowDelta.addedRow) := by
  refine compareKey_noCross_shape gPrev gCurr k P C hp hc hPne hCne ?_ hPt hCt
  intro p' hp2 c' hc2
  obtain ⟨p, hpP, rfl⟩ := List.mem_map.mp hp2
  obtain ⟨c, hcC, rfl⟩ := List.mem_map.mp hc2
  cases h2 : dictBeq (dropKey p) (dropKey c) with
  | false => rfl
  | true =>
    exfalso
    obtain ⟨v, hv⟩ := Option.isSome_iff_exists.mp (hPcol p hpP)
    have hvp : lookupCol (dropKey p) col = some v := by
      rw [lookupCol_dropKey p col hcol]; exact hv
    have hmem := lookupCol_some_mem (dropKey p) col v hvp
    rw [dictBeq] at h2
    have hall := ((Bool.and_eq_true _ _).mp h2).1
    have hpt := List.all_eq_true.mp hall (col, v) hmem
    have hcl : lookupCol (dropKey c) col = some v := by simpa using hpt
    rw [lookupCol_dropKey c col hcol, hCcol c hcC] at hcl
    exact absurd hcl (by simp)

/-- Claim C6 witness: the amended theorem applied at the mismatched pair. -/
theorem c6_witness :
    lookupGroup (groupsOf dfA.rows) (Value.str "K")
      = some [[("Part Location", Value.str "K"), ("A", Value.str "1")]] ∧
    lookupGroup (groupsOf dfB.rows) (Value.str "K")
      = some [[("Part Location", Value.str "K"), ("B", Value.str "1")]] ∧
    compareKey (groupsOf dfA.rows) (groupsOf dfB.rows) (Value.str "K")
      = KeyDelta.changed (Value.str "K")
          [RowDelta.removedRow [("A", Value.str "1")],
           RowDelta.addedRow [("B", Value.str "1")]] :=
  ⟨by decide, by decide,
    (c6_no_schema_check (groupsOf dfA.rows) (groupsOf dfB.rows) (Value.str "K")
      [[("Part Location", Value.str "K"), ("A", Value.str "1")]]
      [[("Part Location", Value.str "K"), ("B", Value.str "1")]] "A"
      (by decide) (by decide) (by decide) (by decide) (by decide)
      (by decide) (by decide) (by decide) (by decide)).trans (by decide)⟩

/-! ## Claim C7 -/

/-- Claim C7: a missing Part Location column fails only its own pair: the
run produces one outcome per consecutive pair, the failing pair's outcome is
the diagnostic entry, and every pair's outcome is computed independently of
the others, so the run continues. -/
theorem c7_missing_key_local (ord : Df → Df → List Value) (dfs : List Df)
    (i : Nat) (pr : Df × Df) (h2 : 2 ≤ dfs.length)
    (hpr : (consecPairs dfs)[i]? = some pr)
    (hmiss : (pr.1.cols.contains "Part Location" &&
      pr.2.cols.contains "Part Location") = false) :
    (runAll ord dfs).length = dfs.length - 1 ∧
    (runAll ord dfs)[i]? = some PairOutcome.missingKeyColumn ∧
    ∀ (j : Nat) (q : Df × Df), (consecPairs dfs)[j]? = some q →
      (runAll ord dfs)[j]? = some (comparePair q.1 q.2 (ord q.1 q.2)) := by
  refine ⟨?_, ?_, ?_⟩
  · rw [runAll, List.length_map, consecPairs, List.length_zip, List.length_tail]
    omega
  · rw [runAll, List.getElem?_map, hpr]
    show some (comparePair pr.1 pr.2 (ord pr.1 pr.2)) = _
    rw [comparePair, if_neg (by rw [hmiss]; simp)]
  · intro j q hq
    rw [runAll, List.getElem?_map, hq]
    rfl

/-- Claim C7 witness: a three-snapshot run in which the first pair lacks the
key column yet the second pair is still compared. -/
theorem c7_witness :
    2 ≤ ([dfNoKey, dfA, dfA] : List Df).length ∧
    (consecPairs [dfNoKey, dfA, dfA])[0]? = some (dfNoKey, dfA) ∧
    (((dfNoKey : Df).cols.contains "Part Location" &&
      (dfA : Df).cols.contains "Part Location") = false) ∧
    ((runAll (fun _ _ => [Value.str "K"]) [dfNoKey, dfA, dfA]).length
        = ([dfNoKey, dfA, dfA] : List Df).length - 1 ∧
      (runAll (fun _ _ => [Value.str "K"]) [dfNoKey, dfA, dfA])[0]?
        = some PairOutcome.missingKeyColumn ∧
      ∀ (j : Nat) (q : Df × Df), (consecPairs [dfNoKey, dfA, dfA])[j]? = some q →
        (runAll (fun _ _ => [Value.str "K"]) [dfNoKey, dfA, dfA])[j]?
          = some (comparePair q.1 q.2 [Value.str "K"])) :=
  ⟨by decide, by decide, by decide,
    c7_missing_key_local (fun _ _ => [Value.str "K"]) [dfNoKey, dfA, dfA] 0
      (dfNoKey, dfA) (by decide) (by decide) (by decide)⟩

/-! ## Claim C8 -/

/-- Claim C8: for any key of the union, comparing the pair in reversed order
yields `KeyRemoved` with the same payload exactly where the original order
yields `KeyAdded`, and vice versa. -/
theorem c8_add_remove_symmetry (gPrev gCurr : Groups) (k : Value) (rs : List Row)
    (hk : k ∈ keysOf gPrev ∨ k ∈ keysOf gCurr) :
    (compareKey gPrev gCurr k = KeyDelta.added k rs ↔
      compareKey gCurr gPrev k = KeyDelta.removed k rs) ∧
    (compareKey gPrev gCurr k = KeyDelta.removed k rs ↔
      compareKey gCurr gPrev k = KeyDelta.added k rs) := by
  cases hlp : lookupGroup gPrev k with
  | none =>
    cases hlc : lookupGroup gCurr k with
    | none =>
      exfalso
      rcases hk with h1 | h2
      · exact (lookupGroup_none_iff gPrev k).mp hlp h1
      · exact (lookupGroup_none_iff gCurr k).mp hlc h2
    | some C =>
      simp only [compareKey, hlp, hlc, Option.getD_some]
      simp
  | some P =>
    cases hlc : lookupGroup gCurr k with
    | none =>
      simp only [compareKey, hlp, hlc, Option.getD_some]
      simp
    | some C =>
      rcases compareKey_bothSome_shape gPrev gCurr k P C hlp hlc with h1 | ⟨ds1, h1⟩ <;>
        rcases compareKey_bothSome_shape gCurr gPrev k C P hlc hlp with h2 | ⟨ds2, h2⟩ <;>
          rw [h1, h2] <;> simp

/-- Claim C8 witness: the symmetry theorem applied at a key present only in
the current snapshot. -/
theorem c8_witness :
    (Value.str "K2" ∈ keysOf (groupsOf [rowK1]) ∨
      Value.str "K2" ∈ keysOf (groupsOf [rowK2])) ∧
    ((compareKey (groupsOf [rowK1]) (groupsOf [rowK2]) (Value.str "K2")
        = KeyDelta.added (Value.str "K2") [rowK2] ↔
      compareKey (groupsOf [rowK2]) (groupsOf [rowK1]) (Value.str "K2")
        = KeyDelta.removed (Value.str "K2") [rowK2]) ∧
     (compareKey (groupsOf [rowK1]) (groupsOf [rowK2]) (Value.str "K2")
        = KeyDelta.removed (Value.str "K2") [rowK2] ↔
      compareKey (groupsOf [rowK2]) (groupsOf [rowK1]) (Value.str "K2")
        = KeyDelta.added (Value.str "K2") [rowK2])) :=
  ⟨by decide, c8_add_remove_symmetry (groupsOf [rowK1]) (groupsOf [rowK2])
    (Value.str "K2") [rowK2] (by decide)⟩

/-! ## Claim C9 -/

theorem compareRowsOpt_nil_left (C : List Row) : compareRowsOpt [] C = none := rfl

theorem compareRowsOpt_nil_right (P : List Row) : compareRowsOpt P [] = none := by
  unfold compareRowsOpt
  rw [show (!P.isEmpty && !([] : List Row).isEmpty) = false from by simp,
    if_neg (by simp)]

theorem noCross_perm (P P' C C' : List Row) (hPP : P.Perm P') (hCC : C.Perm C')
    (h : noCross (P.map dropKey) (C.map dropKey)) :
    noCross (P'.map dropKey) (C'.map dropKey) := by
  intro p' hp2 c' hc2
  obtain ⟨p, hpm, rfl⟩ := List.mem_map.mp hp2
  obtain ⟨c, hcm, rfl⟩ := List.mem_map.mp hc2
  exact h (dropKey p) (List.mem_map.mpr ⟨p, hPP.mem_iff.mpr hpm, rfl⟩)
    (dropKey c) (List.mem_map.mpr ⟨c, hCC.mem_iff.mpr hcm, rfl⟩)

/-- Claim C9: permuting the internal row order within either group (or both)
leaves the multiset — hence the set — of emitted row deltas unchanged. -/
theorem c9_reorder_stable (gp gc gp' gc' : Groups) (k : Value) (P P' C C' : List Row)
    (hp : lookupGroup gp k = some P) (hc : lookupGroup gc k = some C)
    (hp' : lookupGroup gp' k = some P') (hc' : lookupGroup gc' k = some C')
    (hPP : P.Perm P') (hCC : C.Perm C') :
    (rowDeltasOf (compareKey gp gc k) : Multiset RowDelta) =
      (rowDeltasOf (compareKey gp' gc' k) : Multiset RowDelta) := by
  rw [rowDeltasOf_compareKey gp gc k P C hp hc,
    rowDeltasOf_compareKey gp' gc' k P' C' hp' hc']
  by_cases hPe : P = []
  · have hP'e : P' = [] := List.eq_nil_of_length_eq_zero
      (by rw [← hPP.length_eq, hPe]; rfl)
    rw [hPe, hP'e, compareRowsOpt_nil_left, compareRowsOpt_nil_left]
  · by_cases hCe : C = []
    · have hC'e : C' = [] := List.eq_nil_of_length_eq_zero
        (by rw [← hCC.length_eq, hCe]; rfl)
      rw [hCe, hC'e, compareRowsOpt_nil_right, compareRowsOpt_nil_right]
    · have hP'ne : P' ≠ [] := fun h =>
        hPe (List.eq_nil_of_length_eq_zero (by rw [hPP.length_eq, h]; rfl))
      have hC'ne : C' ≠ [] := fun h =>
        hCe (List.eq_nil_of_length_eq_zero (by rw [hCC.length_eq, h]; rfl))
      by_cases hnc : noCross (P.map dropKey) (C.map dropKey)
      · have hnc' := noCross_perm P P' C C' hPP hCC hnc
        rw [compareRowsOpt_noCross P C hPe hCe hnc,
          compareRowsOpt_noCross P' C' hP'ne hC'ne hnc']
        simp only [Option.getD_some]
        refine Multiset.coe_eq_coe.mpr ?_
        refine List.Perm.filterMap classifyChange ?_
        exact ((hPP.map dropKey).map _).append ((hCC.map dropKey).map _)
      · have hnc2 : ¬ noCross (P'.map dropKey) (C'.map dropKey) := fun h =>
          hnc (noCross_perm P' P C' C hPP.symm hCC.symm h)
        have h1 : compareRowsOpt P C = none := by
          refine compareRowsOpt_none_of_matched P C fun hlen => ?_
          exact hnc ((matchedPrev_nil_iff _ _).mp (List.eq_nil_of_length_eq_zero hlen))
        have h2 : compareRowsOpt P' C' = none := by
          refine compareRowsOpt_none_of_matched P' C' fun hlen => ?_
          exact hnc2 ((matchedPrev_nil_iff _ _).mp (List.eq_nil_of_length_eq_zero hlen))
        rw [h1, h2]

/-- Claim C9 witness: the reordering theorem applied with the two rows of the
previous group swapped. -/
theorem c9_witness :
    ([rowL1, rowL2] : List Row).Perm [rowL2, rowL1] ∧
    (rowDeltasOf (compareKey (groupsOf [rowL1, rowL2]) (groupsOf [rowL3])
        (Value.str "L")) : Multiset RowDelta) =
      (rowDeltasOf (compareKey (groupsOf [rowL2, rowL1]) (groupsOf [rowL3])
        (Value.str "L")) : Multiset RowDelta) :=
  ⟨by decide, c9_reorder_stable (groupsOf [rowL1, rowL2]) (groupsOf [rowL3])
    (groupsOf [rowL2, rowL1]) (groupsOf [rowL3]) (Value.str "L")
    [rowL1, rowL2] [rowL2, rowL1] [rowL3] [rowL3]
    (by decide) (by decide) (by decide) (by decide) (by decide) (by decide)⟩

/-! ## Claim C10 -/

/-- Claim C10: the second pass's rescan of the unmatched previous rows never
finds a match — any current row equal to a first-pass-unmatched previous row
would already have been matched during the first pass — so the comparator
coincides, on all inputs, with the simplified version whose second phase
records every first-pass-unmatched current row directly as an added-row
candidate without rescanning. -/
theorem c10_rescan_redundant :
    (∀ prevDicts currDicts,
      matchRows prevDicts currDicts = matchRowsSimple prevDicts currDicts) ∧
    ∀ gPrev gCurr k, compareKey gPrev gCurr k = compareKeySimple gPrev gCurr k := by
  refine ⟨matchRows_eq_simple, ?_⟩
  intro gp gc k
  unfold compareKey compareKeySimple compareRowsOpt compareRowsOptSimple
  simp only [matchRows_eq_simple]
